import Mathlib

/-!
Verification development for the git-branchless core: a shallow embedding of
the event log, the commands `hide`/`unhide` (src/commands/hide.rs), `next`
(src/commands/navigation.rs) and `move` (src/commands/move.rs), together with
the parts of the event replayer, rebase-plan builder and undo synthesizer that
the commands consume. Components whose implementation files are not part of
the packaged sources are modelled from the specification and are marked as
such in their doc comments.
-/

namespace Branchless

/-! ## Event log data model

Modelled from the spec: the `Event` type of `core/eventlog.rs` (§3 of the
spec). Commit OIDs are modelled as natural numbers, reference names as
strings; a zero/absent OID is `Option.none`. The `timestamp` field does not
affect any replay or undo behaviour and is omitted. The `event_id` is implicit
as the position in the event list (a cursor is a list index, exclusive). -/
inductive EventKind where
  | refUpdate (refName : String) (oldOid : Option Nat) (newOid : Option Nat)
  | commitEv (commitOid : Nat)
  | hideEv (commitOid : Nat)
  | unhideEv (commitOid : Nat)
  | rewriteEv (oldCommitOid : Nat) (newCommitOid : Nat)
  deriving DecidableEq, Repr

/-- Modelled from the spec: an event record; `txId` is the
`event_tx_id` grouping events of one logical transaction. -/
structure Event where
  txId : Nat
  kind : EventKind
  deriving DecidableEq, Repr

/-- Modelled from the spec: commit visibility statuses of the event replayer
(`CommitVisibility` in `core/eventlog.rs`): `Visible`, `Hidden`, and the
absence of any event touching the commit (`Unknown`). -/
inductive Vis where
  | visible
  | hidden
  | unknown
  deriving DecidableEq, Repr

/-- Whether a visibility status makes the commit a member of the set of
visible commits. -/
def Vis.isVis : Vis → Bool
  | Vis.visible => true
  | Vis.hidden => false
  | Vis.unknown => false

/-- Modelled from the spec: the effect of one event on the per-commit
visibility map (§4.2 visibility rule): `CommitEvent`/`UnhideEvent` and the
`new` side of a `RewriteEvent` make a commit visible; `HideEvent` and the
`old` side of a `RewriteEvent` make it hidden; `RefUpdateEvent` does not touch
commit visibility. -/
def applyKindVis (v : Nat → Vis) : EventKind → (Nat → Vis)
  | EventKind.refUpdate _ _ _ => v
  | EventKind.commitEv c => fun x => if x = c then Vis.visible else v x
  | EventKind.hideEv c => fun x => if x = c then Vis.hidden else v x
  | EventKind.unhideEv c => fun x => if x = c then Vis.visible else v x
  | EventKind.rewriteEv o n => fun x =>
      if x = n then Vis.visible else if x = o then Vis.hidden else v x

/-- Modelled from the spec: replayed commit visibility after a whole event
log (`commit_visibility` at the default cursor): fold the visibility rule
over the events in ascending `event_id` order, starting from `Unknown`. -/
def visAfter (log : List Event) : Nat → Vis :=
  log.foldl (fun v e => applyKindVis v e.kind) (fun _ => Vis.unknown)

/-- Modelled from the spec: the effect of one event on the reference state:
only `RefUpdateEvent` moves a reference (to `new_oid`, which is `none` for a
deletion). -/
def applyKindRef (r : String → Option Nat) : EventKind → (String → Option Nat)
  | EventKind.refUpdate name _ new => fun s => if s = name then new else r s
  | _ => r

/-- Modelled from the spec: replayed reference state after a whole event log
(`ref_state` at the default cursor). -/
def refsAfter (log : List Event) : String → Option Nat :=
  log.foldl (fun r e => applyKindRef r e.kind) (fun _ => none)

/-- The event log after a sequence of `add_events` calls, each appending one
batch atomically. -/
def appendBatches (log : List Event) (batches : List (List Event)) : List Event :=
  log ++ batches.flatten

/-! ## Undo synthesizer -/

/-- Modelled from the spec: the inverse of one event kind (§4.7 step 2 of the
spec; `commands/undo.rs` is not among the packaged sources): a ref update is
reversed, a commit/unhide becomes a hide, a hide becomes an unhide, and a
rewrite is flipped. -/
def invKind : EventKind → EventKind
  | EventKind.refUpdate r old new => EventKind.refUpdate r new old
  | EventKind.commitEv c => EventKind.hideEv c
  | EventKind.hideEv c => EventKind.unhideEv c
  | EventKind.unhideEv c => EventKind.hideEv c
  | EventKind.rewriteEv o n => EventKind.rewriteEv n o

/-- Modelled from the spec: the inverse event sequence the undo synthesizer
appends for the events between the past cursor and the current cursor: the
events in reverse order, each inverted, all grouped under one fresh
transaction id (§4.7 steps 2 and 4). The ref-update folding of step 3 is an
optimization that does not change the replayed final state and is not
modelled. -/
def undo_events (txId : Nat) (suffix : List Event) : List Event :=
  suffix.reverse.map (fun e => ⟨txId, invKind e.kind⟩)

/-- The per-event precondition under which one mutation event is invertible:
hide-type effects are applied to commits whose replayed status is currently
a member of the visible set, show-type effects to commits currently outside
it, and a recorded ref update carries the reference's actual prior value. -/
def okEvent (L : List Event) : EventKind → Prop
  | EventKind.refUpdate r old _ => refsAfter L r = old
  | EventKind.commitEv c => (visAfter L c).isVis = false
  | EventKind.hideEv c => (visAfter L c).isVis = true
  | EventKind.unhideEv c => (visAfter L c).isVis = false
  | EventKind.rewriteEv o n =>
      (visAfter L o).isVis = true ∧ (o = n ∨ (visAfter L n).isVis = false)

instance (L : List Event) (k : EventKind) : Decidable (okEvent L k) := by
  cases k <;> simp only [okEvent] <;> infer_instance

/-- A mutation suffix is effective relative to a prefix log when each of its
events satisfies `okEvent` in the state produced by all events before it. -/
def Effective (L : List Event) : List Event → Prop
  | [] => True
  | e :: es => okEvent L e.kind ∧ Effective (L ++ [e]) es

instance decEffective : (S L : List Event) → Decidable (Effective L S)
  | [], _ => Decidable.isTrue trivial
  | e :: es, L =>
      haveI : Decidable (Effective (L ++ [e]) es) := decEffective es (L ++ [e])
      inferInstanceAs (Decidable (okEvent L e.kind ∧ Effective (L ++ [e]) es))

/-! ## Commit graph nodes and the hide/unhide commands (src/commands/hide.rs)

The commit graph keys nodes by OID; every node stores a single `parent`
pointer and the `children` list is its inverse, so the parent/children edges
of the graph form a forest. A node together with its descendants is embedded
as a finitely-branching tree carrying the `is_visible` attribute that
`recurse_on_commits` inspects. -/
inductive CTree where
  | node (oid : Nat) (isVisible : Bool) (children : List CTree)
  deriving Repr

/-- The OID of a graph node. -/
def CTree.oid : CTree → Nat
  | CTree.node o _ _ => o

/-- The `is_visible` attribute of a graph node. -/
def CTree.isVisible : CTree → Bool
  | CTree.node _ v _ => v

/-- The `children` of a graph node. -/
def CTree.children : CTree → List CTree
  | CTree.node _ _ cs => cs

/-- `Occurs u t`: the graph node `u` lies in the subtree rooted at `t`
(reflexive-transitive closure of the `children` relation), i.e. `u` is one of
the nodes `recurse_on_commits_helper` visits when started at `t`. -/
inductive Occurs : CTree → CTree → Prop where
  | refl (t : CTree) : Occurs t t
  | child {u c t : CTree} : c ∈ CTree.children t → Occurs u c → Occurs u t

/-- Embedding of `recurse_on_commits_helper` from src/commands/hide.rs: if
the node satisfies the condition, invoke the callback on it; then recurse on
every child, whether or not the node satisfied the condition. The collected
callback arguments are returned as a list of (oid, is_visible) pairs in
visit order. -/
def recurse_on_commits_helper (condition : Nat → Bool → Bool) : CTree → List (Nat × Bool)
  | CTree.node o v cs =>
      (if condition o v then [(o, v)] else [])
        ++ (cs.attach.map (fun c => recurse_on_commits_helper condition c.1)).flatten
decreasing_by
  simp only [CTree.node.sizeOf_spec]
  have h := List.sizeOf_lt_of_mem c.2
  omega

/-- The `seen_oids` dedup loop of `recurse_on_commits` from
src/commands/hide.rs: keep each collected commit only the first time its OID
is encountered. -/
def dedupByOid : List (Nat × Bool) → List Nat → List (Nat × Bool)
  | [], _ => []
  | x :: xs, seen =>
      if x.1 ∈ seen then dedupByOid xs seen
      else x :: dedupByOid xs (x.1 :: seen)

/-- Embedding of `recurse_on_commits` from src/commands/hide.rs: run the
helper from each given commit over the commit graph and deduplicate by OID,
maintaining visit order. -/
def recurse_on_commits (condition : Nat → Bool → Bool) (commits : List CTree) :
    List (Nat × Bool) :=
  dedupByOid ((commits.map (recurse_on_commits_helper condition)).flatten) []

/-- The outcome of `resolve_commits` as consumed by hide/unhide
(src/core/graph.rs `ResolveCommitsResult`): either every hash resolved to a
graph node, or some hash did not resolve. -/
inductive ResolveCommitsResult where
  | ok (commits : List CTree)
  | commitNotFound (commit : String)

/-- The observable result of one command invocation: its exit code, the lines
written to the output stream, and the batches of events appended to the event
store (one list entry per `add_events` call). -/
structure CmdResult where
  exitCode : Int
  output : List String
  batches : List (List Event)
  deriving Repr

/-- The lines src/commands/hide.rs prints for one hidden commit: the `Hid
commit` line, the no-effect notice when the replayer (at the pre-command
default cursor) already reports the commit `Hidden`, and the unhide hint. -/
def hideOutputFor (log : List Event) (oid : Nat) : List String :=
  ("Hid commit: " ++ toString oid)
    :: ((if visAfter log oid = Vis.hidden
          then ["(It was already hidden, so this operation had no effect.)"] else [])
      ++ ["To unhide this commit, run: git unhide " ++ toString oid])

/-- Embedding of `hide` from src/commands/hide.rs. `log` is the event log the
command's `EventReplayer` was built from, `tx` the transaction id returned by
`make_transaction_id`, `resolved` the outcome of `resolve_commits` (node
lookups in the commit graph), `recursive` the `--recursive` flag. On
resolution failure it prints one line and exits 1 without appending; else it
appends one `HideEvent` per (possibly recursively collected) commit in a
single `add_events` batch sharing `tx` and exits 0. -/
def hide (log : List Event) (tx : Nat) (resolved : ResolveCommitsResult)
    (recursive : Bool) : CmdResult :=
  match resolved with
  | ResolveCommitsResult.commitNotFound hash =>
      ⟨1, ["Commit not found: " ++ hash], []⟩
  | ResolveCommitsResult.ok commits =>
      let targets : List Nat :=
        if recursive then (recurse_on_commits (fun _ v => v) commits).map Prod.fst
        else commits.map CTree.oid
      let events : List Event := targets.map (fun oid => ⟨tx, EventKind.hideEv oid⟩)
      ⟨0, (targets.map (hideOutputFor log)).flatten, [events]⟩

/-- The lines src/commands/hide.rs prints for one unhidden commit. -/
def unhideOutputFor (log : List Event) (oid : Nat) : List String :=
  ("Unhid commit: " ++ toString oid)
    :: ((if visAfter log oid = Vis.visible
          then ["(It was not hidden, so this operation had no effect.)"] else [])
      ++ ["To hide this commit, run: git hide " ++ toString oid])

/-- Embedding of `unhide` from src/commands/hide.rs; symmetric to `hide`,
with the recursion condition `!node.is_visible` and `UnhideEvent`s. -/
def unhide (log : List Event) (tx : Nat) (resolved : ResolveCommitsResult)
    (recursive : Bool) : CmdResult :=
  match resolved with
  | ResolveCommitsResult.commitNotFound hash =>
      ⟨1, ["Commit not found: " ++ hash], []⟩
  | ResolveCommitsResult.ok commits =>
      let targets : List Nat :=
        if recursive then (recurse_on_commits (fun _ v => !v) commits).map Prod.fst
        else commits.map CTree.oid
      let events : List Event := targets.map (fun oid => ⟨tx, EventKind.unhideEv oid⟩)
      ⟨0, (targets.map (unhideOutputFor log)).flatten, [events]⟩

/-! ## Navigation (src/commands/navigation.rs) -/

/-- The `Towards` disambiguation values of src/commands/navigation.rs. -/
inductive Towards where
  | newest
  | oldest
  deriving DecidableEq, Repr

/-- The descriptor printed after the j-th of `len` ambiguous children in
`advance_towards_own_commit`: the first child is `(oldest)`, the last is
`(newest)`. -/
def childDescriptor (j len : Nat) : String :=
  if j = 0 then " (oldest)" else if j + 1 = len then " (newest)" else ""

/-- The diagnostic `advance_towards_own_commit` prints when `next` is
ambiguous after traversing `i` children: a header, one line per child with
its descriptor, and the flag hint. -/
def ambiguousOutput (describe : Nat → String) (i : Nat) (children : List Nat) :
    List String :=
  ("Found multiple possible next commits to go to after traversing "
      ++ toString i ++ " children:")
    :: ((children.zip (List.range children.length)).map
          (fun cj => "  - " ++ describe cj.1 ++ childDescriptor cj.2 children.length)
      ++ ["(Pass --oldest (-o) or --newest (-n) to select between ambiguous next commits)"])

/-- The loop body of `advance_towards_own_commit` from
src/commands/navigation.rs: `g` maps an OID to its (timestamp-ordered)
children list in the commit graph, `fuel` is the remaining number of commits
to advance, `i` the number already traversed. No children ends the loop on
the current commit; a single child is followed; with `--newest`/`--oldest`
the last/first child is followed; multiple children without a flag print the
diagnostic and yield no commit. -/
def advanceLoop (g : Nat → List Nat) (describe : Nat → String)
    (towards : Option Towards) : Nat → Nat → Nat → Option Nat × List String
  | current, 0, _ => (some current, [])
  | current, fuel + 1, i =>
      match towards, g current with
      | _, [] => (some current, [])
      | _, [onlyChild] => advanceLoop g describe towards onlyChild fuel (i + 1)
      | some Towards.newest, c :: c2 :: rest =>
          advanceLoop g describe towards ((c :: c2 :: rest).getLastD c) fuel (i + 1)
      | some Towards.oldest, c :: _ :: _ =>
          advanceLoop g describe towards c fuel (i + 1)
      | none, c :: c2 :: rest => (none, ambiguousOutput describe i (c :: c2 :: rest))

/-- Embedding of `advance_towards_own_commit` from
src/commands/navigation.rs: advance `num_commits` steps from `current`
through the children lists, returning the reached OID (or `none` on an
ambiguity without a disambiguation flag) and the diagnostic lines printed. -/
def advance_towards_own_commit (g : Nat → List Nat) (describe : Nat → String)
    (current : Nat) (num_commits : Nat) (towards : Option Towards) :
    Option Nat × List String :=
  advanceLoop g describe towards current num_commits 0

/-- The tail of `next` from src/commands/navigation.rs: an ambiguous advance
(`None`) exits 1; otherwise the reached commit is checked out and a non-zero
checkout exit code is propagated, else the exit code is 0. -/
def next_exit_code (advanceResult : Option Nat) (checkoutResult : Int) : Int :=
  match advanceResult with
  | none => 1
  | some _ => if checkoutResult ≠ 0 then checkoutResult else 0

/-! ## Move (src/commands/move.rs) and the rebase plan builder -/

/-- The `BuildRebasePlanOptions` record consumed by the rebase plan builder
(`core/rewrite.rs`), as constructed in src/commands/move.rs. -/
structure BuildRebasePlanOptions where
  dump_rebase_constraints : Bool
  dump_rebase_plan : Bool
  detect_duplicate_commits_via_patch_id : Bool
  deriving Repr

/-- The options literal src/commands/move.rs passes to
`RebasePlanBuilder.build`: the two dump flags are forwarded from the CLI and
patch-id duplicate detection is always enabled. -/
def moveBuildOptions (dump_rebase_constraints dump_rebase_plan : Bool) :
    BuildRebasePlanOptions :=
  ⟨dump_rebase_constraints, dump_rebase_plan, true⟩

/-- The primitive rebase steps of the plan builder (spec §4.5). -/
inductive RebaseStep where
  | pick (commitOid : Nat)
  | label (name : String)
  | reset (name : String)
  | createLabel (oid : Nat) (name : String)
  deriving DecidableEq, Repr

/-- A rebase plan: the ordered steps plus the `RewriteEvent`s (old, new)
emitted for commits skipped by patch-id duplicate detection. -/
structure RebasePlan where
  steps : List RebaseStep
  rewrites : List (Nat × Nat)
  deriving Repr

/-- Modelled from the spec: the duplicate-detection core of
`RebasePlanBuilder.build` (`core/rewrite.rs` is not among the packaged
sources; spec §4.5 steps 3-4): emit `Label(onto)` at the destination, then
for each subtree commit in order, if duplicate detection is enabled and some
destination ancestor has the same patch id, skip the commit and record a
`RewriteEvent{old=commit, new=matching_ancestor}`; otherwise emit a `Pick`. -/
def planProcessed (opts : BuildRebasePlanOptions) (patchId : Nat → Nat)
    (destAncestors : List Nat) (subtree : List Nat) : List (Sum Nat (Nat × Nat)) :=
  subtree.map (fun c =>
    if opts.detect_duplicate_commits_via_patch_id then
      match destAncestors.find? (fun a => patchId a == patchId c) with
      | some a => Sum.inr (c, a)
      | none => Sum.inl c
    else Sum.inl c)

def build_rebase_plan (opts : BuildRebasePlanOptions) (patchId : Nat → Nat)
    (destAncestors : List Nat) (subtree : List Nat) : RebasePlan :=
  { steps := RebaseStep.label "onto"
      :: (planProcessed opts patchId destAncestors subtree).filterMap (fun s =>
        match s with
        | Sum.inl c => some (RebaseStep.pick c)
        | Sum.inr _ => none)
    rewrites := (planProcessed opts patchId destAncestors subtree).filterMap (fun s =>
      match s with
      | Sum.inl _ => none
      | Sum.inr p => some p) }

/-- Embedding of `r#move` from src/commands/move.rs as a function of its
external collaborators: the `--source`/`--base`/`--dest` arguments, the OID
of HEAD, the outcome of `resolve_commits` on the source and dest hashes, the
plan builder's result (`Err` carries the `describe()` rendering of the
structured error), and the exit code and event batches of
`execute_rebase_plan` when a plan is executed. Mirrors the match cascade of
the source: mutually exclusive flags, missing defaults and unresolved
commits print one line and exit 1 before any event is appended; a `None`
plan prints `Nothing to do.` and exits 0 without appending. -/
def moveCommand (source base dest : Option String) (headOid : Option Nat)
    (resolved : ResolveCommitsResult)
    (planResult : Except String (Option RebasePlan))
    (executeExitCode : Int) (executeBatches : List (List Event)) : CmdResult :=
  match source, base with
  | some _, some _ =>
      ⟨1, ["The --source and --base options cannot both be provided."], []⟩
  | sourceOpt, baseOpt =>
      match sourceOpt, baseOpt, headOid with
      | none, none, none =>
          ⟨1, ["No --source or --base argument was provided, and no OID for HEAD is available as a default"], []⟩
      | _, _, _ =>
          match dest, headOid with
          | none, none =>
              ⟨1, ["No --dest argument was provided, and no OID for HEAD is available as a default"], []⟩
          | _, _ =>
              match resolved with
              | ResolveCommitsResult.commitNotFound commit =>
                  ⟨1, ["Commit not found: " ++ commit], []⟩
              | ResolveCommitsResult.ok _ =>
                  match planResult with
                  | Except.ok none => ⟨0, ["Nothing to do."], []⟩
                  | Except.ok (some _) => ⟨executeExitCode, [], executeBatches⟩
                  | Except.error msg => ⟨1, [msg], []⟩

/-! ## Sub-VCS environment (tests/command/test_undo.rs) -/

/-- The `GIT_` byte-prefix test on an environment variable name, as in
`k.to_raw_bytes().starts_with(b"GIT_")` from tests/command/test_undo.rs
(variable names are byte strings, modelled as character lists). -/
def startsWithGit : List Char → Bool
  | 'G' :: 'I' :: 'T' :: '_' :: _ => true
  | _ => false

/-- The environment constructed for sub-VCS (git) invocations in
tests/command/test_undo.rs `run_undo_events`: all inherited variables except
those whose name begins with `GIT_`. -/
def filterGitEnv (env : List (List Char × String)) : List (List Char × String) :=
  env.filter (fun kv => !startsWithGit kv.1)

/-- A linear chain of descendants below `c` in the commit graph: each node's
children list is exactly the next node of the chain and the final node has no
children. -/
def isChain (g : Nat → List Nat) : Nat → List Nat → Prop
  | c, [] => g c = []
  | c, d :: ds => g c = [d] ∧ isChain g d ds

instance decIsChain (g : Nat → List Nat) : (p : List Nat) → (c : Nat) →
    Decidable (isChain g c p)
  | [], c => inferInstanceAs (Decidable (g c = []))
  | d :: ds, c =>
      haveI := decIsChain g ds d
      inferInstanceAs (Decidable (g c = [d] ∧ isChain g d ds))

/-- The last node of the chain `p` below `c`, or `c` itself when the chain is
empty. -/
def lastOf (c : Nat) (p : List Nat) : Nat :=
  p.getLastD c

/-! ## Replayer lemmas -/

theorem visAfter_append (a b : List Event) :
    visAfter (a ++ b) = b.foldl (fun v e => applyKindVis v e.kind) (visAfter a) := by
  simp [visAfter, List.foldl_append]

theorem refsAfter_append (a b : List Event) :
    refsAfter (a ++ b) = b.foldl (fun r e => applyKindRef r e.kind) (refsAfter a) := by
  simp [refsAfter, List.foldl_append]

theorem visAfter_snoc (a : List Event) (e : Event) :
    visAfter (a ++ [e]) = applyKindVis (visAfter a) e.kind := by
  simp [visAfter_append]

theorem refsAfter_snoc (a : List Event) (e : Event) :
    refsAfter (a ++ [e]) = applyKindRef (refsAfter a) e.kind := by
  simp [refsAfter_append]

theorem undo_events_cons (txId : Nat) (e : Event) (es : List Event) :
    undo_events txId (e :: es) = undo_events txId es ++ [⟨txId, invKind e.kind⟩] := by
  simp [undo_events]

theorem undo_restores_aux (S : List Event) : ∀ (L : List Event) (tx : Nat),
    Effective L S →
    ((∀ x, (visAfter (L ++ S ++ undo_events tx S) x).isVis = (visAfter L x).isVis)
      ∧ (∀ r, refsAfter (L ++ S ++ undo_events tx S) r = refsAfter L r)) := by
  induction S with
  | nil =>
    intro L tx _
    simp [undo_events]
  | cons e es ih =>
    intro L tx h
    simp only [Effective] at h
    obtain ⟨hok, heff⟩ := h
    obtain ⟨ihv, ihr⟩ := ih (L ++ [e]) tx heff
    have hlog : L ++ (e :: es) ++ undo_events tx (e :: es)
        = ((L ++ [e]) ++ es ++ undo_events tx es) ++ [⟨tx, invKind e.kind⟩] := by
      simp [undo_events_cons]
    rw [hlog]
    constructor
    · intro x
      rw [visAfter_snoc]
      have hstep : visAfter (L ++ [e]) x = applyKindVis (visAfter L) e.kind x := by
        rw [visAfter_snoc]
      cases hk : e.kind with
      | refUpdate r old new =>
        simp only [invKind, applyKindVis]
        rw [ihv x, hstep, hk]
        simp [applyKindVis]
      | commitEv c =>
        rw [hk] at hok
        simp only [okEvent] at hok
        simp only [invKind, applyKindVis]
        by_cases hx : x = c
        · rw [if_pos hx, hx, hok]
          rfl
        · rw [if_neg hx]
          rw [ihv x, hstep, hk]
          simp [applyKindVis, if_neg hx]
      | hideEv c =>
        rw [hk] at hok
        simp only [okEvent] at hok
        simp only [invKind, applyKindVis]
        by_cases hx : x = c
        · rw [if_pos hx, hx, hok]
          rfl
        · rw [if_neg hx]
          rw [ihv x, hstep, hk]
          simp [applyKindVis, if_neg hx]
      | unhideEv c =>
        rw [hk] at hok
        simp only [okEvent] at hok
        simp only [invKind, applyKindVis]
        by_cases hx : x = c
        · rw [if_pos hx, hx, hok]
          rfl
        · rw [if_neg hx]
          rw [ihv x, hstep, hk]
          simp [applyKindVis, if_neg hx]
      | rewriteEv o n =>
        rw [hk] at hok
        simp only [okEvent] at hok
        obtain ⟨hvo, hn⟩ := hok
        simp only [invKind, applyKindVis]
        by_cases hxo : x = o
        · rw [if_pos hxo, hxo, hvo]
          rfl
        · rw [if_neg hxo]
          by_cases hxn : x = n
          · rcases hn with hn | hn
            · exact absurd (hxn.trans hn.symm) hxo
            · rw [if_pos hxn, hxn, hn]
              rfl
          · rw [if_neg hxn]
            rw [ihv x, hstep, hk]
            simp [applyKindVis, if_neg hxo, if_neg hxn]
    · intro r
      rw [refsAfter_snoc]
      have hstep : refsAfter (L ++ [e]) r = applyKindRef (refsAfter L) e.kind r := by
        rw [refsAfter_snoc]
      cases hk : e.kind with
      | refUpdate s old new =>
        rw [hk] at hok
        simp only [okEvent] at hok
        by_cases hr : r = s
        · subst hr
          simp [invKind, applyKindRef, hok]
        · simp only [invKind, applyKindRef, if_neg hr]
          rw [ihr r, hstep, hk]
          simp [applyKindRef, if_neg hr]
      | commitEv c =>
        simp only [invKind, applyKindRef]
        rw [ihr r, hstep, hk]
        simp [applyKindRef]
      | hideEv c =>
        simp only [invKind, applyKindRef]
        rw [ihr r, hstep, hk]
        simp [applyKindRef]
      | unhideEv c =>
        simp only [invKind, applyKindRef]
        rw [ihr r, hstep, hk]
        simp [applyKindRef]
      | rewriteEv o n =>
        simp only [invKind, applyKindRef]
        rw [ihr r, hstep, hk]
        simp [applyKindRef]

/-! ## C1: undo round-trip -/

/-- C1 counterexample: the undo round-trip does not hold for every sequence
of core mutations. Concretely, start from the log `[CommitEvent 1,
HideEvent 1]` (commit 1 is `Hidden` at the cursor) and apply the mutation
`HideEvent 1` — which the `hide` command emits even for an already-hidden
commit. Undoing that mutation appends `UnhideEvent 1`, after which commit 1
is *visible*, whereas it was hidden at the cursor being restored: the set of
visible commits is not restored. -/
theorem undo_round_trip_counterexample :
    (visAfter ([⟨0, EventKind.commitEv 1⟩, ⟨1, EventKind.hideEv 1⟩]
          ++ [⟨2, EventKind.hideEv 1⟩] ++ undo_events 3 [⟨2, EventKind.hideEv 1⟩]) 1).isVis
        = true
      ∧ (visAfter [⟨0, EventKind.commitEv 1⟩, ⟨1, EventKind.hideEv 1⟩] 1).isVis = false := by
  constructor
  · rfl
  · rfl

/-- C1 (amended): for every sequence of core mutations that is *effective* —
each hide-type event applies to a commit currently in the visible set, each
show-type event to a commit currently outside it, and each recorded ref
update carries the reference's actual prior value — running undo back to the
cursor preceding the mutations restores the reference state and the set of
visible commits to what they were at that cursor, and the synthesized inverse
events all carry the single fresh transaction id. -/
theorem undo_round_trip (prefixLog suffixEvents : List Event) (tx : Nat)
    (heff : Effective prefixLog suffixEvents) :
    (∀ x, (visAfter (prefixLog ++ suffixEvents ++ undo_events tx suffixEvents) x).isVis
        = (visAfter prefixLog x).isVis)
    ∧ (∀ r, refsAfter (prefixLog ++ suffixEvents ++ undo_events tx suffixEvents) r
        = refsAfter prefixLog r)
    ∧ (∀ e ∈ undo_events tx suffixEvents, e.txId = tx) := by
  obtain ⟨hv, hr⟩ := undo_restores_aux suffixEvents prefixLog tx heff
  refine ⟨hv, hr, ?_⟩
  intro e he
  simp only [undo_events, List.mem_map] at he
  obtain ⟨e0, _, rfl⟩ := he
  rfl

/-- C1 witness: a concrete effective mutation (hiding the visible commit 1)
whose undo restores commit 1's membership in the visible set. -/
theorem undo_round_trip_witness :
    Effective [⟨0, EventKind.commitEv 1⟩] [⟨1, EventKind.hideEv 1⟩]
      ∧ (visAfter ([⟨0, EventKind.commitEv 1⟩] ++ [⟨1, EventKind.hideEv 1⟩]
            ++ undo_events 2 [⟨1, EventKind.hideEv 1⟩]) 1).isVis
          = (visAfter [⟨0, EventKind.commitEv 1⟩] 1).isVis :=
  ⟨by decide,
    (undo_round_trip [⟨0, EventKind.commitEv 1⟩] [⟨1, EventKind.hideEv 1⟩] 2 (by decide)).1 1⟩

/-! ## Lemmas about the recursive hide traversal -/

theorem recurse_helper_node (cond : Nat → Bool → Bool) (o : Nat) (v : Bool)
    (cs : List CTree) :
    recurse_on_commits_helper cond (CTree.node o v cs)
      = (if cond o v then [(o, v)] else [])
        ++ (cs.map (recurse_on_commits_helper cond)).flatten := by
  rw [recurse_on_commits_helper]
  rw [List.attach_map_val]

theorem recurse_helper_eq (cond : Nat → Bool → Bool) (t : CTree) :
    recurse_on_commits_helper cond t
      = (if cond (CTree.oid t) (CTree.isVisible t)
          then [(CTree.oid t, CTree.isVisible t)] else [])
        ++ ((CTree.children t).map (recurse_on_commits_helper cond)).flatten := by
  cases t with
  | node o v cs => rw [recurse_helper_node]; rfl

theorem mem_recurse_helper (cond : Nat → Bool → Bool) : ∀ (t : CTree) (p : Nat × Bool),
    p ∈ recurse_on_commits_helper cond t → cond p.1 p.2 = true
  | CTree.node o v cs => by
      intro p hp
      rw [recurse_helper_node] at hp
      rcases List.mem_append.1 hp with h | h
      · by_cases hc : cond o v
        · rw [if_pos hc] at h
          simp only [List.mem_singleton] at h
          subst h
          exact hc
        · rw [if_neg hc] at h
          simp at h
      · obtain ⟨l, hl, hpl⟩ := List.mem_flatten.1 h
        obtain ⟨c, hcmem, rfl⟩ := List.mem_map.1 hl
        exact mem_recurse_helper cond c p hpl
termination_by t => sizeOf t
decreasing_by
  simp only [CTree.node.sizeOf_spec]
  have h := List.sizeOf_lt_of_mem hcmem
  omega

theorem occurs_mem_recurse_helper (cond : Nat → Bool → Bool) {u t : CTree}
    (hocc : Occurs u t) (hc : cond (CTree.oid u) (CTree.isVisible u) = true) :
    (CTree.oid u, CTree.isVisible u) ∈ recurse_on_commits_helper cond t := by
  induction hocc with
  | refl =>
    rw [recurse_helper_eq]
    apply List.mem_append.2
    left
    rw [if_pos hc]
    simp
  | child hmem _ ih =>
    rw [recurse_helper_eq]
    apply List.mem_append.2
    right
    exact List.mem_flatten.2
      ⟨_, List.mem_map_of_mem (recurse_on_commits_helper cond) hmem, ih⟩

theorem mem_dedupByOid_sub : ∀ (l : List (Nat × Bool)) (seen : List Nat) (p : Nat × Bool),
    p ∈ dedupByOid l seen → p ∈ l := by
  intro l
  induction l with
  | nil =>
    intro seen p h
    simp [dedupByOid] at h
  | cons x xs ih =>
    intro seen p h
    rw [dedupByOid] at h
    by_cases hx : x.1 ∈ seen
    · rw [if_pos hx] at h
      exact List.mem_cons_of_mem _ (ih _ _ h)
    · rw [if_neg hx] at h
      rcases List.mem_cons.1 h with h | h
      · exact h ▸ List.mem_cons_self _ _
      · exact List.mem_cons_of_mem _ (ih _ _ h)

theorem mem_map_fst_dedupByOid : ∀ (l : List (Nat × Bool)) (seen : List Nat) (o : Nat),
    o ∈ (dedupByOid l seen).map Prod.fst ↔ (o ∈ l.map Prod.fst ∧ o ∉ seen) := by
  intro l
  induction l with
  | nil =>
    intro seen o
    simp [dedupByOid]
  | cons x xs ih =>
    intro seen o
    rw [dedupByOid]
    by_cases hx : x.1 ∈ seen
    · rw [if_pos hx, ih]
      simp only [List.map_cons, List.mem_cons]
      constructor
      · rintro ⟨h1, h2⟩
        exact ⟨Or.inr h1, h2⟩
      · rintro ⟨h1 | h1, h2⟩
        · exact absurd (h1 ▸ hx) h2
        · exact ⟨h1, h2⟩
    · rw [if_neg hx]
      simp only [List.map_cons, List.mem_cons]
      rw [ih]
      constructor
      · rintro (h | ⟨h1, h2⟩)
        · exact ⟨Or.inl h, fun hs => hx (h ▸ hs)⟩
        · simp only [List.mem_cons, not_or] at h2
          exact ⟨Or.inr h1, h2.2⟩
      · rintro ⟨h | h1, h2⟩
        · exact Or.inl h
        · by_cases ho : o = x.1
          · exact Or.inl ho
          · refine Or.inr ⟨h1, ?_⟩
            simp only [List.mem_cons, not_or]
            exact ⟨ho, h2⟩

theorem nodup_map_fst_dedupByOid : ∀ (l : List (Nat × Bool)) (seen : List Nat),
    ((dedupByOid l seen).map Prod.fst).Nodup := by
  intro l
  induction l with
  | nil =>
    intro seen
    simp [dedupByOid]
  | cons x xs ih =>
    intro seen
    rw [dedupByOid]
    by_cases hx : x.1 ∈ seen
    · rw [if_pos hx]
      exact ih seen
    · rw [if_neg hx]
      simp only [List.map_cons, List.nodup_cons]
      refine ⟨fun hmem => ?_, ih _⟩
      have := (mem_map_fst_dedupByOid xs (x.1 :: seen) x.1).1 hmem
      exact this.2 (List.mem_cons_self _ _)

/-! ## C2: recursive hide of a visible linear chain -/

/-- C2: hiding a visible linear chain `A ← B ← C` with `--recursive` appends
exactly three `HideEvent`s (for `A`, `B`, `C` in order), all carrying the
same transaction id, in one atomic `add_events` batch; the command exits 0
and afterwards the replayer reports all three commits `Hidden`. -/
theorem hide_recursive_chain (log : List Event) (tx a b c : Nat)
    (hab : a ≠ b) (hac : a ≠ c) (hbc : b ≠ c) :
    (hide log tx (ResolveCommitsResult.ok
          [CTree.node a true [CTree.node b true [CTree.node c true []]]]) true).batches
        = [[⟨tx, EventKind.hideEv a⟩, ⟨tx, EventKind.hideEv b⟩, ⟨tx, EventKind.hideEv c⟩]]
    ∧ (hide log tx (ResolveCommitsResult.ok
          [CTree.node a true [CTree.node b true [CTree.node c true []]]]) true).exitCode = 0
    ∧ visAfter (appendBatches log (hide log tx (ResolveCommitsResult.ok
          [CTree.node a true [CTree.node b true [CTree.node c true []]]]) true).batches) a
        = Vis.hidden
    ∧ visAfter (appendBatches log (hide log tx (ResolveCommitsResult.ok
          [CTree.node a true [CTree.node b true [CTree.node c true []]]]) true).batches) b
        = Vis.hidden
    ∧ visAfter (appendBatches log (hide log tx (ResolveCommitsResult.ok
          [CTree.node a true [CTree.node b true [CTree.node c true []]]]) true).batches) c
        = Vis.hidden := by
  have hrec : recurse_on_commits (fun _ v => v)
      [CTree.node a true [CTree.node b true [CTree.node c true []]]]
      = [(a, true), (b, true), (c, true)] := by
    simp [recurse_on_commits, recurse_helper_node, dedupByOid,
      hab, hac, hbc, Ne.symm hab, Ne.symm hac, Ne.symm hbc]
  have hbatches : (hide log tx (ResolveCommitsResult.ok
      [CTree.node a true [CTree.node b true [CTree.node c true []]]]) true).batches
      = [[⟨tx, EventKind.hideEv a⟩, ⟨tx, EventKind.hideEv b⟩, ⟨tx, EventKind.hideEv c⟩]] := by
    simp [hide, hrec]
  refine ⟨hbatches, by simp [hide], ?_, ?_, ?_⟩
  all_goals
    rw [hbatches]
    simp [appendBatches, visAfter_append, applyKindVis,
      hab, hac, hbc, Ne.symm hab, Ne.symm hac, Ne.symm hbc]

/-- C2 witness: the chain with OIDs 1, 2, 3. -/
theorem hide_recursive_chain_witness :
    (1 : Nat) ≠ 2 ∧ (1 : Nat) ≠ 3 ∧ (2 : Nat) ≠ 3
      ∧ (hide [] 7 (ResolveCommitsResult.ok
            [CTree.node 1 true [CTree.node 2 true [CTree.node 3 true []]]]) true).batches
          = [[⟨7, EventKind.hideEv 1⟩, ⟨7, EventKind.hideEv 2⟩, ⟨7, EventKind.hideEv 3⟩]] :=
  ⟨by decide, by decide, by decide,
    (hide_recursive_chain [] 7 1 2 3 (by decide) (by decide) (by decide)).1⟩

/-! ## C8: hide of an already-hidden commit -/

/-- C8: `hide` on a commit that the replayer already reports `Hidden` at the
pre-command cursor still appends a `HideEvent` for it, still exits 0, and
prints the notice that the operation had no effect. -/
theorem hide_already_hidden (log : List Event) (tx : Nat) (t : CTree)
    (h : visAfter log (CTree.oid t) = Vis.hidden) :
    (hide log tx (ResolveCommitsResult.ok [t]) false).exitCode = 0
    ∧ (hide log tx (ResolveCommitsResult.ok [t]) false).batches
        = [[⟨tx, EventKind.hideEv (CTree.oid t)⟩]]
    ∧ "(It was already hidden, so this operation had no effect.)"
        ∈ (hide log tx (ResolveCommitsResult.ok [t]) false).output := by
  refine ⟨by simp [hide], by simp [hide], ?_⟩
  simp [hide, hideOutputFor, h]

/-- C8 witness: commit 1 hidden by a prior `HideEvent`. -/
theorem hide_already_hidden_witness :
    visAfter [⟨0, EventKind.hideEv 1⟩] (CTree.oid (CTree.node 1 false [])) = Vis.hidden
      ∧ "(It was already hidden, so this operation had no effect.)"
          ∈ (hide [⟨0, EventKind.hideEv 1⟩] 5
              (ResolveCommitsResult.ok [CTree.node 1 false []]) false).output :=
  ⟨by decide,
    (hide_already_hidden [⟨0, EventKind.hideEv 1⟩] 5 (CTree.node 1 false []) (by decide)).2.2⟩

/-! ## C10: conditions of the recursive hide/unhide traversal -/

/-- C10: recursive hide collects (and so emits `HideEvent`s for) only
subtree nodes whose graph attribute `is_visible` is true, and recursive
unhide only nodes with `is_visible` false; the recursion still descends
through nodes failing the condition, so every subtree node satisfying the
condition is collected; and each OID appears at most once in the collected
list. -/
theorem recursive_hide_unhide_filter (ts : List CTree) :
    (∀ p ∈ recurse_on_commits (fun _ v => v) ts, p.2 = true)
    ∧ (∀ p ∈ recurse_on_commits (fun _ v => !v) ts, p.2 = false)
    ∧ (∀ u t, t ∈ ts → Occurs u t → CTree.isVisible u = true →
        CTree.oid u ∈ (recurse_on_commits (fun _ v => v) ts).map Prod.fst)
    ∧ (∀ u t, t ∈ ts → Occurs u t → CTree.isVisible u = false →
        CTree.oid u ∈ (recurse_on_commits (fun _ v => !v) ts).map Prod.fst)
    ∧ ((recurse_on_commits (fun _ v => v) ts).map Prod.fst).Nodup
    ∧ ((recurse_on_commits (fun _ v => !v) ts).map Prod.fst).Nodup := by
  have hmemcond : ∀ (cond : Nat → Bool → Bool) (p : Nat × Bool),
      p ∈ recurse_on_commits cond ts → cond p.1 p.2 = true := by
    intro cond p hp
    have hp2 := mem_dedupByOid_sub _ _ _ hp
    obtain ⟨l, hl, hpl⟩ := List.mem_flatten.1 hp2
    obtain ⟨t, _, rfl⟩ := List.mem_map.1 hl
    exact mem_recurse_helper cond t p hpl
  have hdescend : ∀ (cond : Nat → Bool → Bool) (u t : CTree), t ∈ ts → Occurs u t →
      cond (CTree.oid u) (CTree.isVisible u) = true →
      CTree.oid u ∈ (recurse_on_commits cond ts).map Prod.fst := by
    intro cond u t ht hocc hc
    have hmem := occurs_mem_recurse_helper cond hocc hc
    have hflat : (CTree.oid u, CTree.isVisible u)
        ∈ (ts.map (recurse_on_commits_helper cond)).flatten :=
      List.mem_flatten.2 ⟨_, List.mem_map_of_mem (recurse_on_commits_helper cond) ht, hmem⟩
    exact (mem_map_fst_dedupByOid _ [] (CTree.oid u)).2
      ⟨List.mem_map_of_mem Prod.fst hflat, by simp⟩
  refine ⟨?_, ?_, ?_, ?_, nodup_map_fst_dedupByOid _ _, nodup_map_fst_dedupByOid _ _⟩
  · intro p hp
    exact hmemcond (fun _ v => v) p hp
  · intro p hp
    have := hmemcond (fun _ v => !v) p hp
    simpa using this
  · intro u t ht hocc hvis
    exact hdescend (fun _ v => v) u t ht hocc hvis
  · intro u t ht hocc hvis
    exact hdescend (fun _ v => !v) u t ht hocc (by simp [hvis])

/-- C10 witness: a hidden node between two visible ones — the visible
grandchild 3 is still collected by recursive hide although its parent 2
fails the visibility condition. -/
theorem recursive_hide_unhide_filter_witness :
    CTree.node 2 false [CTree.node 3 true []]
        ∈ CTree.children (CTree.node 1 true [CTree.node 2 false [CTree.node 3 true []]])
    ∧ (3 : Nat) ∈ (recurse_on_commits (fun _ v => v)
        [CTree.node 1 true [CTree.node 2 false [CTree.node 3 true []]]]).map Prod.fst := by
  have hocc : Occurs (CTree.node 3 true [])
      (CTree.node 1 true [CTree.node 2 false [CTree.node 3 true []]]) :=
    @Occurs.child (CTree.node 3 true []) (CTree.node 2 false [CTree.node 3 true []])
      (CTree.node 1 true [CTree.node 2 false [CTree.node 3 true []]])
      (by simp [CTree.children])
      (@Occurs.child (CTree.node 3 true []) (CTree.node 3 true [])
        (CTree.node 2 false [CTree.node 3 true []])
        (by simp [CTree.children]) (Occurs.refl _))
  exact ⟨by simp [CTree.children],
    (recursive_hide_unhide_filter _).2.2.1 (CTree.node 3 true []) _ (by simp) hocc rfl⟩

/-! ## C3: ambiguous next -/

/-- C3: when the current commit has exactly two children `B₁` (older, first
in the list) and `B₂` (newer, last), `next` without a disambiguation flag
yields no commit — so the command exits 1 — after printing the diagnostic
that lists both children with their `(oldest)`/`(newest)` descriptors and the
flag hint; `next --oldest` advances to `B₁` and `next --newest` to `B₂`. -/
theorem next_ambiguous_children (g : Nat → List Nat) (describe : Nat → String)
    (a b1 b2 : Nat) (cc : Int) (h : g a = [b1, b2]) :
    advance_towards_own_commit g describe a 1 none
        = (none,
          ["Found multiple possible next commits to go to after traversing 0 children:",
            "  - " ++ describe b1 ++ " (oldest)",
            "  - " ++ describe b2 ++ " (newest)",
            "(Pass --oldest (-o) or --newest (-n) to select between ambiguous next commits)"])
    ∧ next_exit_code (advance_towards_own_commit g describe a 1 none).1 cc = 1
    ∧ advance_towards_own_commit g describe a 1 (some Towards.oldest) = (some b1, [])
    ∧ advance_towards_own_commit g describe a 1 (some Towards.newest) = (some b2, []) := by
  have h1 : advance_towards_own_commit g describe a 1 none
      = (none, ambiguousOutput describe 0 [b1, b2]) := by
    simp [advance_towards_own_commit, advanceLoop, h]
  have h2 : ambiguousOutput describe 0 [b1, b2]
      = ["Found multiple possible next commits to go to after traversing 0 children:",
          "  - " ++ describe b1 ++ " (oldest)",
          "  - " ++ describe b2 ++ " (newest)",
          "(Pass --oldest (-o) or --newest (-n) to select between ambiguous next commits)"] := by
    rfl
  refine ⟨h1.trans (by rw [h2]), ?_, ?_, ?_⟩
  · rw [h1]
    rfl
  · simp [advance_towards_own_commit, advanceLoop, h]
  · simp [advance_towards_own_commit, advanceLoop, h]

/-- C3 witness: commit 0 with the two children 1 (older) and 2 (newer). -/
theorem next_ambiguous_children_witness :
    (fun x => if x = 0 then [1, 2] else ([] : List Nat)) 0 = [1, 2]
    ∧ advance_towards_own_commit (fun x => if x = 0 then [1, 2] else []) toString
        0 1 (some Towards.oldest) = (some 1, []) :=
  ⟨rfl, (next_ambiguous_children (fun x => if x = 0 then [1, 2] else []) toString
    0 1 2 0 rfl).2.2.1⟩

/-! ## C9: next past the deepest descendant -/

theorem advanceLoop_chain (g : Nat → List Nat) (describe : Nat → String)
    (tw : Option Towards) : ∀ (p : List Nat) (cur n i : Nat),
    isChain g cur p → p.length < n →
    advanceLoop g describe tw cur n i = (some (lastOf cur p), []) := by
  intro p
  induction p with
  | nil =>
    intro cur n i hchain hn
    simp only [isChain] at hchain
    cases n with
    | zero => omega
    | succ m =>
      simp [advanceLoop, hchain, lastOf]
  | cons d ds ih =>
    intro cur n i hchain hn
    simp only [isChain] at hchain
    obtain ⟨h1, h2⟩ := hchain
    cases n with
    | zero => omega
    | succ m =>
      have hm : ds.length < m := by
        simp only [List.length_cons] at hn
        omega
      have hrec : advanceLoop g describe tw cur (m + 1) i
          = advanceLoop g describe tw d m (i + 1) := by
        simp [advanceLoop, h1]
      have hlast : lastOf cur (d :: ds) = lastOf d ds := by
        cases ds <;> rfl
      rw [hrec, ih d m (i + 1) h2 hm, hlast]

theorem isChain_last (g : Nat → List Nat) : ∀ (p : List Nat) (c : Nat),
    isChain g c p → g (lastOf c p) = [] := by
  intro p
  induction p with
  | nil =>
    intro c h
    simpa [lastOf] using h
  | cons d ds ih =>
    intro c h
    obtain ⟨_, h2⟩ := h
    have hlast : lastOf c (d :: ds) = lastOf d ds := by
      cases ds <;> rfl
    rw [hlast]
    exact ih d h2

/-- C9: when the commits below the current one form a linear chain and `N`
exceeds the chain's length, `next N` silently stops at the furthest
descendant — a node with an empty children list — prints no diagnostic, and
(with a successful checkout) exits 0 rather than reporting an error. -/
theorem next_stops_at_furthest (g : Nat → List Nat) (describe : Nat → String)
    (start n : Nat) (p : List Nat) (tw : Option Towards)
    (hchain : isChain g start p) (hn : p.length < n) :
    advance_towards_own_commit g describe start n tw = (some (lastOf start p), [])
    ∧ g (lastOf start p) = []
    ∧ next_exit_code (advance_towards_own_commit g describe start n tw).1 0 = 0 := by
  have h1 := advanceLoop_chain g describe tw p start n 0 hchain hn
  have h2 : advance_towards_own_commit g describe start n tw
      = (some (lastOf start p), []) := h1
  refine ⟨h2, isChain_last g p start hchain, ?_⟩
  rw [h2]
  rfl

/-- C9 witness: a two-commit chain below commit 0, advanced by 5. -/
theorem next_stops_at_furthest_witness :
    isChain (fun x => if x = 0 then [1] else if x = 1 then [2] else []) 0 [1, 2]
    ∧ [1, 2].length < 5
    ∧ advance_towards_own_commit
        (fun x => if x = 0 then [1] else if x = 1 then [2] else []) toString 0 5 none
        = (some (lastOf 0 [1, 2]), []) :=
  ⟨by decide, by decide,
    (next_stops_at_furthest (fun x => if x = 0 then [1] else if x = 1 then [2] else [])
      toString 0 5 [1, 2] none (by decide) (by decide)).1⟩

/-! ## C4: move no-op -/

/-- C4: when the plan builder reports that there is nothing to move (`Ok
(None)`), `move --source X --dest Y` prints `Nothing to do.`, exits 0, and
performs no `add_events` call, leaving the event log unchanged. -/
theorem move_no_op (s d : String) (headOid : Option Nat) (commits : List CTree)
    (executeExitCode : Int) (executeBatches : List (List Event)) (log : List Event) :
    moveCommand (some s) none (some d) headOid (ResolveCommitsResult.ok commits)
        (Except.ok none) executeExitCode executeBatches
      = ⟨0, ["Nothing to do."], []⟩
    ∧ appendBatches log (moveCommand (some s) none (some d) headOid
        (ResolveCommitsResult.ok commits) (Except.ok none) executeExitCode
        executeBatches).batches = log := by
  cases headOid <;> exact ⟨rfl, by simp [moveCommand, appendBatches]⟩

/-! ## C5: move always enables patch-id duplicate detection -/

/-- C5: every `move` invocation passes `detect_duplicate_commits_via_patch_id
= true` to the plan builder, and the builder, for a subtree commit `P` whose
patch id matches some destination ancestor, emits no `Pick(P)` step and
instead records a `RewriteEvent` from `P` to the matching ancestor. -/
theorem move_patch_id_dedup (d1 d2 : Bool) (patchId : Nat → Nat)
    (destAncestors subtree : List Nat) (P : Nat)
    (hP : P ∈ subtree) (hdup : ∃ a ∈ destAncestors, patchId a = patchId P) :
    (moveBuildOptions d1 d2).detect_duplicate_commits_via_patch_id = true
    ∧ RebaseStep.pick P
        ∉ (build_rebase_plan (moveBuildOptions d1 d2) patchId destAncestors subtree).steps
    ∧ ∃ a, a ∈ destAncestors ∧ patchId a = patchId P
        ∧ (P, a) ∈ (build_rebase_plan (moveBuildOptions d1 d2) patchId
            destAncestors subtree).rewrites := by
  have hfind : (destAncestors.find? (fun a => patchId a == patchId P)).isSome := by
    rw [List.find?_isSome]
    obtain ⟨a, ha, hpa⟩ := hdup
    exact ⟨a, ha, by simp [hpa]⟩
  obtain ⟨a0, ha0⟩ := Option.isSome_iff_exists.1 hfind
  have helem : (fun c =>
      if (moveBuildOptions d1 d2).detect_duplicate_commits_via_patch_id then
        match destAncestors.find? (fun a => patchId a == patchId c) with
        | some a => Sum.inr (c, a)
        | none => Sum.inl c
      else Sum.inl c) P = Sum.inr (P, a0) := by
    simp [moveBuildOptions, ha0]
  refine ⟨rfl, ?_, ?_⟩
  · intro hmem
    simp only [build_rebase_plan] at hmem
    rcases List.mem_cons.1 hmem with hbad | hmem2
    · exact absurd hbad (by simp)
    · obtain ⟨sel, hsel, hout⟩ := List.mem_filterMap.1 hmem2
      simp only [planProcessed] at hsel
      obtain ⟨c, hc, rfl⟩ := List.mem_map.1 hsel
      revert hout
      cases hfc : destAncestors.find? (fun a => patchId a == patchId c) with
      | some a =>
        intro hout
        simp [moveBuildOptions, hfc] at hout
      | none =>
        intro hout
        simp only [moveBuildOptions, hfc] at hout
        simp at hout
        subst hout
        rw [hfc] at ha0
        exact Option.noConfusion ha0
  · refine ⟨a0, List.mem_of_find?_eq_some ha0, ?_, ?_⟩
    · have := List.find?_some ha0
      simpa using this
    · simp only [build_rebase_plan]
      apply List.mem_filterMap.2
      refine ⟨Sum.inr (P, a0), ?_, rfl⟩
      simp only [planProcessed]
      apply List.mem_map.2
      exact ⟨P, hP, helem⟩

/-- C5 witness: the destination already contains commit 5 with the same
patch id as the subtree commit 5. -/
theorem move_patch_id_dedup_witness :
    (5 : Nat) ∈ [5]
    ∧ (∃ a ∈ [(5 : Nat)], (fun x : Nat => x) a = (fun x : Nat => x) 5)
    ∧ RebaseStep.pick 5
        ∉ (build_rebase_plan (moveBuildOptions false false) (fun x => x) [5] [5]).steps :=
  ⟨by decide, ⟨5, by decide, rfl⟩,
    (move_patch_id_dedup false false (fun x => x) [5] [5] 5 (by decide)
      ⟨5, by decide, rfl⟩).2.1⟩

/-! ## C6: user-input errors -/

/-- C6: each user-input error — an unresolvable commit hash in `hide`,
`unhide` or `move`, or `--source` and `--base` passed together to `move` —
prints exactly one line, returns exit code 1, and appends no events. -/
theorem user_input_errors (log : List Event) (tx : Nat) (hash : String)
    (rec : Bool) (s b d : String) (headOid : Option Nat) (destOpt : Option String)
    (resolved : ResolveCommitsResult) (planResult : Except String (Option RebasePlan))
    (executeExitCode : Int) (executeBatches : List (List Event)) :
    hide log tx (ResolveCommitsResult.commitNotFound hash) rec
        = ⟨1, ["Commit not found: " ++ hash], []⟩
    ∧ unhide log tx (ResolveCommitsResult.commitNotFound hash) rec
        = ⟨1, ["Commit not found: " ++ hash], []⟩
    ∧ moveCommand (some s) none (some d) headOid
        (ResolveCommitsResult.commitNotFound hash) planResult executeExitCode
        executeBatches
        = ⟨1, ["Commit not found: " ++ hash], []⟩
    ∧ moveCommand (some s) (some b) destOpt headOid resolved planResult
        executeExitCode executeBatches
        = ⟨1, ["The --source and --base options cannot both be provided."], []⟩ := by
  refine ⟨rfl, rfl, ?_, rfl⟩
  cases headOid <;> rfl

/-! ## C7: GIT_ environment stripping -/

/-- C7: every variable whose name begins with the bytes `GIT_` is stripped
from the environment passed to sub-VCS invocations, and inserting or removing
such a variable anywhere does not change the resulting environment, so two
runs differing only in `GIT_`-prefixed variables invoke git identically. -/
theorem git_env_strip :
    (∀ (env : List (List Char × String)) (k : List Char) (v : String),
        startsWithGit k = true → (k, v) ∉ filterGitEnv env)
    ∧ (∀ (pre suf : List (List Char × String)) (k : List Char) (v : String),
        startsWithGit k = true →
          filterGitEnv (pre ++ (k, v) :: suf) = filterGitEnv (pre ++ suf)) := by
  constructor
  · intro env k v hk hmem
    have hpred := List.of_mem_filter hmem
    simp [hk] at hpred
  · intro pre suf k v hk
    simp [filterGitEnv, List.filter_append, List.filter_cons, hk]

/-- C7 witness: `GIT_INDEX_FILE` is stripped while `PATH` survives. -/
theorem git_env_strip_witness :
    startsWithGit "GIT_INDEX_FILE".toList = true
    ∧ ("GIT_INDEX_FILE".toList, "idx")
        ∉ filterGitEnv [("GIT_INDEX_FILE".toList, "idx"), ("PATH".toList, "p")] :=
  ⟨by decide, git_env_strip.1 _ _ _ (by decide)⟩

end Branchless
